import Mathlib

/-!
Verification development for the in-memory mutation-caching layer
(memtable / row cache / read context) and the gossip endpoint state
of this repository.

The C++ sources are embedded shallowly:

* `gms/endpoint_state.hh` : the `versioned_value` map held by an
  `endpoint_state` and `apply_application_state`.
* `read_context.hh` : the state machine of
  `cache::autoupdating_underlying_reader` (`move_to_next_partition`,
  `fast_forward_to`), at partition granularity.
* `memtable` (only its tests are in the repository snapshot; the
  definitions below that carry a `Modelled from the spec:` comment are
  reconstructed from the specification, not from C++ sources).

Machine integers do not overflow in any of the embedded code paths that
matter here (versions are compared, sizes are added and subtracted under
explicit bounds), so counters are modelled as `Nat` / `Int` directly.
-/

namespace Gms

/-- Embeds `gms::versioned_value` (referenced by `gms/endpoint_state.hh`):
a value tagged with a version used for last-write-wins reconciliation.
Only the `version` field participates in `apply_application_state`;
the payload is kept abstract as a `String` like the C++ `sstring value`. -/
structure versioned_value where
  version : Int
  value : String
deriving DecidableEq, Repr

/-- The `std::map<application_state, versioned_value> _application_state`
member of `gms::endpoint_state`, embedded extensionally as a partial map
from application-state keys (abstracted to `Nat`) to versioned values. -/
def AppStateMap : Type := Nat → Option versioned_value

/-- Embeds `endpoint_state::apply_application_state(key, value)`
(`gms/endpoint_state.hh`).  The C++ body is
`auto&& e = _application_state[key]; if (e.version < value.version) e = value;`:
`operator[]` materialises a default-constructed entry when the key is
absent (the default-constructed `versioned_value` is passed in as `d`,
since `gms/versioned_value.hh` is not part of the snapshot), and the
stored entry is replaced exactly when its version is strictly smaller. -/
def apply_application_state (d : versioned_value) (m : AppStateMap)
    (key : Nat) (v : versioned_value) : AppStateMap :=
  let e := (m key).getD d
  let e2 := if e.version < v.version then v else e
  fun k => if k = key then some e2 else m k

/-- Folding `apply_application_state` over a sequence of (key, value)
pairs; this is the shape of `apply_application_state(const endpoint_state&)`
which iterates the other endpoint state's map, and of any sequence of
individual gossip updates. -/
def apply_application_state_seq (d : versioned_value) (m : AppStateMap)
    (ops : List (Nat × versioned_value)) : AppStateMap :=
  ops.foldl (fun acc op => apply_application_state d acc op.1 op.2) m

theorem apply_application_state_version_le (d : versioned_value)
    (m : AppStateMap) (key : Nat) (v : versioned_value) (e : versioned_value)
    (he : m key = some e) :
    ∃ e2, apply_application_state d m key v key = some e2 ∧
      e.version ≤ e2.version := by
  unfold apply_application_state
  simp only [he, Option.getD_some, if_pos rfl]
  by_cases h : e.version < v.version
  · exact ⟨v, by simp [h], le_of_lt h⟩
  · exact ⟨e, by simp [h], le_refl _⟩

theorem apply_application_state_mono_seq (d : versioned_value)
    (ops : List (Nat × versioned_value)) (m : AppStateMap) (key : Nat)
    (e : versioned_value) (he : m key = some e) :
    ∃ e2, apply_application_state_seq d m ops key = some e2 ∧
      e.version ≤ e2.version := by
  induction ops generalizing m e with
  | nil => exact ⟨e, he, le_refl _⟩
  | cons op t ih =>
    obtain ⟨k1, v1⟩ := op
    by_cases hk : key = k1
    · subst hk
      obtain ⟨e1, he1, hle1⟩ := apply_application_state_version_le d m key v1 e he
      obtain ⟨e2, he2, hle2⟩ := ih (apply_application_state d m key v1) e1 he1
      exact ⟨e2, he2, le_trans hle1 hle2⟩
    · have hstep : apply_application_state d m k1 v1 key = some e := by
        unfold apply_application_state
        simp only [if_neg hk]
        exact he
      obtain ⟨e2, he2, hle⟩ := ih _ e hstep
      exact ⟨e2, he2, hle⟩

/-- C10: for every gossip `endpoint_state`, application-state key and
versioned value, `apply_application_state` replaces the stored value for
that key exactly when the stored version is strictly less than the
incoming version (first conjunct: the result at `key` is `v` when
`stored.version < v.version` and the old `stored` otherwise); the stored
version for each key is non-decreasing across any sequence of
`apply_application_state` calls (second conjunct); and applying the same
(key, value) pair twice yields the same state as applying it once
(third conjunct). -/
theorem endpoint_state_apply_application_state_lww
    (d : versioned_value) (m : AppStateMap) (key : Nat)
    (v stored : versioned_value) (ops : List (Nat × versioned_value))
    (he : m key = some stored) :
    (apply_application_state d m key v key =
        some (if stored.version < v.version then v else stored)) ∧
    (∃ e2, apply_application_state_seq d m ops key = some e2 ∧
        stored.version ≤ e2.version) ∧
    (apply_application_state d (apply_application_state d m key v) key v =
        apply_application_state d m key v) := by
  refine ⟨?_, apply_application_state_mono_seq d ops m key stored he, ?_⟩
  · unfold apply_application_state
    simp only [he, Option.getD_some, if_pos rfl]
    by_cases hv : stored.version < v.version <;> simp [hv]
  · funext k
    by_cases hk : k = key
    · subst hk
      unfold apply_application_state
      simp only [he, Option.getD_some, if_pos rfl]
      by_cases hv : stored.version < v.version
      · simp [hv, lt_irrefl]
      · simp [hv]
    · unfold apply_application_state
      simp [hk]

/-- Concrete application-state map with one stored entry, used to
instantiate the C10 theorem. -/
def gossipExampleMap : AppStateMap :=
  fun k => if k = 0 then some ⟨3, "x"⟩ else none

theorem endpoint_state_apply_application_state_lww_witness :
    gossipExampleMap 0 = some ⟨3, "x"⟩ ∧
    ((apply_application_state ⟨-1, ""⟩ gossipExampleMap 0 ⟨5, "y"⟩ 0 =
        some (if (3 : Int) < 5 then (⟨5, "y"⟩ : versioned_value) else ⟨3, "x"⟩)) ∧
    (∃ e2, apply_application_state_seq ⟨-1, ""⟩ gossipExampleMap
        [(0, ⟨5, "y"⟩), (0, ⟨4, "z"⟩)] 0 = some e2 ∧ (3 : Int) ≤ e2.version) ∧
    (apply_application_state ⟨-1, ""⟩
        (apply_application_state ⟨-1, ""⟩ gossipExampleMap 0 ⟨5, "y"⟩) 0 ⟨5, "y"⟩ =
        apply_application_state ⟨-1, ""⟩ gossipExampleMap 0 ⟨5, "y"⟩)) :=
  ⟨rfl, endpoint_state_apply_application_state_lww ⟨-1, ""⟩ gossipExampleMap 0
      ⟨5, "y"⟩ ⟨3, "x"⟩ [(0, ⟨5, "y"⟩), (0, ⟨4, "z"⟩)] rfl⟩

end Gms

namespace Cache

/-- `dht::partition_range`, embedded at ring-position granularity:
partition keys are abstracted to `Nat` ring positions and a range covers
the keys `k` with `lo ≤ k < hi`. -/
structure PRange where
  lo : Nat
  hi : Nat
deriving DecidableEq, Repr

/-- Whether a key lies in a partition range. -/
def inRange (r : PRange) (k : Nat) : Bool :=
  decide (r.lo ≤ k) && decide (k < r.hi)

/-- `partition_range::split_after(key, cmp)`: the sub-range of `r`
strictly after `key` (start re-anchored just after the key), or `none`
when that remainder is empty. -/
def PRange.split_after (r : PRange) (k : Nat) : Option PRange :=
  if k + 1 < r.hi then some ⟨max r.lo (k + 1), r.hi⟩ else none

/-- The keys of snapshot `S` that fall inside range `r`, in `S` order. -/
def filterRange (S : List Nat) (r : PRange) : List Nat :=
  S.filter (fun k => inRange r k)

/-- The underlying `flat_mutation_reader`, embedded at partition
granularity: `source` is the snapshot the reader was created over and
`rest` the partition keys it has not yet emitted a `partition_start`
for.  `next_partition()` (which merely drops the unconsumed tail of the
current partition) is the identity at this granularity, so the
`next_partition` / end-of-stream / pull sequence of the C++ code
becomes: end of stream iff `rest = []`, pull = uncons of `rest`. -/
structure UReader where
  source : List Nat
  rest : List Nat
deriving DecidableEq, Repr

/-- `row_cache::create_underlying_reader(ctx, snapshot, range)`: a fresh
reader over `snapshot` restricted to `range`. -/
def create_underlying_reader (snapshot : List Nat) (r : PRange) : UReader :=
  ⟨snapshot, filterRange snapshot r⟩

/-- Native `flat_mutation_reader::fast_forward_to(range)` on the
underlying reader: repositions the same reader (same snapshot) to the
new range. -/
def UReader.fast_forward_to (u : UReader) (r : PRange) : UReader :=
  ⟨u.source, filterRange u.source r⟩

/-- The part of `row_cache` that `autoupdating_underlying_reader`
consults: `phase_of(pos)` gives the phased-barrier phase governing a
ring position, `snapshot_for_phase(phase)` the mutation-source snapshot
valid at that phase (embedded as its list of partition keys in ring
order). -/
structure RCache where
  phase_of : Nat → Nat
  snapshot_for_phase : Nat → List Nat

/-- The two observability counters of `cache_tracker::stats` touched by
`autoupdating_underlying_reader`. -/
structure TrackerStats where
  underlying_recreations : Nat
  underlying_partition_skips : Nat
deriving DecidableEq, Repr

/-- The state of `cache::autoupdating_underlying_reader`
(`read_context.hh`): the optional underlying reader `_reader`, its
creation phase, the current range and the last/new-last emitted keys. -/
structure AUR where
  reader : Option UReader
  reader_creation_phase : Nat
  range : PRange
  last_key : Option Nat
  new_last_key : Option Nat
deriving DecidableEq, Repr

/-- A freshly constructed `autoupdating_underlying_reader` whose range
has been set to `r` (`_reader` empty, `_reader_creation_phase = 0`). -/
def initAUR (r : PRange) : AUR := ⟨none, 0, r, none, none⟩

/-- `population_range_start()`: `for_after_key(*_last_key)` when a last
key exists (position just after it, i.e. `k + 1`), otherwise
`for_range_start(_range)`. -/
def population_range_start (st : AUR) : Nat :=
  match st.last_key with
  | some k => k + 1
  | none => st.range.lo

/-- Result of one `move_to_next_partition()` call: the returned
fragment (a `partition_start` key or end of stream), the new reader
state, the new tracker stats, and whether the call executed
`std::move(*_reader)` while `_reader` held no reader (a dereference of
the disengaged optional).  `flat_mutation_reader_opt` is seastar's
optimized optional, whose disengaged dereference yields the null reader
and whose close is then a no-op, so the call still completes; the flag
records that the dereference happened. -/
structure MtnpResult where
  frag : Option Nat
  st : AUR
  tr : TrackerStats
  absent_deref : Bool
deriving DecidableEq, Repr

/-- The tail of `move_to_next_partition()` after the recreation branch:
`_reader->next_partition()`, the end-of-stream check, and the pull of
the next fragment (always a `partition_start`, whose key is recorded in
`_new_last_key`). -/
def pull_next (st : AUR) (tr : TrackerStats) (ad : Bool) : MtnpResult :=
  match st.reader with
  | none => ⟨none, st, tr, ad⟩
  | some u =>
    match u.rest with
    | [] => ⟨none, st, tr, ad⟩
    | k :: t =>
      ⟨some k, { st with reader := some ⟨u.source, t⟩, new_last_key := some k }, tr, ad⟩

/-- The recreation body of `move_to_next_partition()`: bump the
recreation counter when an old reader exists, execute
`auto old_reader = std::move(*_reader)` (the disengaged dereference is
recorded when `_reader` is empty), create a new underlying reader
against `snapshot_for_phase(phase)` restricted to the current range,
record the creation phase, close the old reader, then pull. -/
def recreate_and_pull (c : RCache) (phase : Nat) (tr : TrackerStats) (st : AUR) :
    MtnpResult :=
  let tr2 := if st.reader.isSome then
      { tr with underlying_recreations := tr.underlying_recreations + 1 } else tr
  let ad := st.reader.isNone
  let st2 := { st with
      reader := some (create_underlying_reader (c.snapshot_for_phase phase) st.range),
      reader_creation_phase := phase }
  pull_next st2 tr2 ad

/-- `autoupdating_underlying_reader::move_to_next_partition()`
(`read_context.hh`): move `_new_last_key` into `_last_key`, look up the
cache phase at the population range start; if no reader exists or its
creation phase differs, re-anchor the range just after the last key
(returning end of stream when nothing remains), recreate the reader
against the snapshot for the current phase, and in all cases pull the
next `partition_start` fragment. -/
def move_to_next_partition (c : RCache) (tr : TrackerStats) (st0 : AUR) : MtnpResult :=
  let st := { st0 with last_key := st0.new_last_key }
  let phase := c.phase_of (population_range_start st)
  if st.reader.isSome && (st.reader_creation_phase == phase) then
    pull_next st tr false
  else
    match st.last_key with
    | none => recreate_and_pull c phase tr st
    | some lk =>
      match st.range.split_after lk with
      | none => ⟨none, { st with reader := none }, tr, false⟩
      | some r2 => recreate_and_pull c phase tr { st with range := r2, last_key := none }

/-- The three-argument
`autoupdating_underlying_reader::fast_forward_to(range, snapshot, phase)`:
set the new range, clear the last keys; reuse the existing reader via a
native fast-forward (counting a partition skip) when its creation phase
equals `phase`, otherwise close it and create a new reader against
`snapshot` (counting a recreation when an old reader existed). -/
def fast_forward_to3 (tr : TrackerStats) (st0 : AUR) (range : PRange)
    (snapshot : List Nat) (phase : Nat) : AUR × TrackerStats :=
  let st := { st0 with range := range, last_key := none, new_last_key := none }
  match st.reader with
  | some u =>
    if st.reader_creation_phase = phase then
      ({ st with reader := some (u.fast_forward_to range) },
       { tr with underlying_partition_skips := tr.underlying_partition_skips + 1 })
    else
      ({ st with reader := some (create_underlying_reader snapshot range),
                 reader_creation_phase := phase },
       { tr with underlying_recreations := tr.underlying_recreations + 1 })
  | none =>
      ({ st with reader := some (create_underlying_reader snapshot range),
                 reader_creation_phase := phase }, tr)

/-- The one-argument
`autoupdating_underlying_reader::fast_forward_to(range)`: the C++ body
is `auto snapshot_and_phase = _cache.snapshot_of(for_range_start(_range))`
followed by the three-argument overload — note that the snapshot and
phase are taken at the start of `_range`, the PRE-call range, not of the
`range` argument (transcribed verbatim from `read_context.hh`). -/
def fast_forward_to1 (c : RCache) (tr : TrackerStats) (st : AUR) (range : PRange) :
    AUR × TrackerStats :=
  let phase := c.phase_of st.range.lo
  fast_forward_to3 tr st range (c.snapshot_for_phase phase) phase

/-- A read: a sequence of `move_to_next_partition()` calls.  The cache
argument is indexed by call number so that flush/compaction phase
advances between calls (which change `phase_of` and install new
snapshots) are modelled faithfully.  Returns the emitted fragment
sequence together with the final reader state and stats. -/
def run_reads : (Nat → RCache) → TrackerStats → AUR → Nat →
    List (Option Nat) × AUR × TrackerStats
  | _, tr, st, 0 => ([], st, tr)
  | cs, tr, st, n + 1 =>
    let r := move_to_next_partition (cs 0) tr st
    let rest := run_reads (fun i => cs (i + 1)) r.tr r.st n
    (r.frag :: rest.1, rest.2)

/-- The fragment sequence a single read of `n` pulls against one fixed
snapshot emits: the first `n` entries of the key list, padded with end
of stream. -/
def take_frags : Nat → List Nat → List (Option Nat)
  | 0, _ => []
  | n + 1, l => l.head? :: take_frags n l.tail

/-- The re-anchoring invariant between a last emitted key, the stored
range and the ideal list `rem` of keys still to emit from snapshot
`S`: before any emission the whole range filter is `rem`; after
emitting `k`, the range split after `k` filters to `rem` (an empty
split meaning the read is exhausted). -/
def anchored (S : List Nat) (lastE : Option Nat) (r : PRange) (rem : List Nat) : Prop :=
  match lastE with
  | none => filterRange S r = rem
  | some k =>
    match r.split_after k with
    | none => rem = []
    | some r2 => filterRange S r2 = rem

/-- The whole coupling invariant of an `autoupdating_underlying_reader`
with the ideal read: `_new_last_key` is the last emitted key, the range
is anchored so that the remaining keys are `rem`, and any existing
underlying reader has exactly `rem` still to emit. -/
def tracks (S rem : List Nat) (lastE : Option Nat) (st : AUR) : Prop :=
  st.new_last_key = lastE ∧
  anchored S lastE st.range rem ∧
  ∀ u, st.reader = some u → u.rest = rem

/-- The remaining range of a reader state: the stored range when nothing
was emitted yet, otherwise the stored range split just after the last
emitted key. -/
def remaining_range (st : AUR) : Option PRange :=
  match st.new_last_key with
  | none => some st.range
  | some k => st.range.split_after k

theorem filterRange_narrow (S : List Nat) (lo hi k : Nat) (h : k + 1 < hi) :
    filterRange S ⟨max lo (k + 1), hi⟩ =
      (filterRange S ⟨lo, hi⟩).filter (fun x => decide (k < x)) := by
  unfold filterRange
  rw [List.filter_filter]
  apply List.filter_congr
  intro a _
  by_cases h1 : lo ≤ a <;> by_cases h2 : a < hi <;> by_cases h3 : k < a <;>
    simp [inRange, h1, h2, h3, decide_eq_true_eq, decide_eq_false_iff_not] <;> omega

theorem filter_gt_head (k : Nat) (t : List Nat)
    (hp : List.Pairwise (· < ·) (k :: t)) :
    (k :: t).filter (fun x => decide (k < x)) = t := by
  rw [List.filter_cons]
  have hk : (decide (k < k)) = false := by simp
  rw [hk]
  simp only [Bool.false_eq_true, if_false]
  exact List.filter_eq_self.mpr (fun a ha => decide_eq_true ((List.pairwise_cons.mp hp).1 a ha))

theorem mem_filterRange (S : List Nat) (r : PRange) (x : Nat) :
    x ∈ filterRange S r ↔ x ∈ S ∧ (r.lo ≤ x ∧ x < r.hi) := by
  unfold filterRange inRange
  rw [List.mem_filter]
  simp [decide_eq_true_eq]

theorem anchored_next (S : List Nat) (hS : List.Pairwise (· < ·) S) (r : PRange)
    (k : Nat) (t : List Nat) (h : filterRange S r = k :: t) :
    anchored S (some k) r t := by
  have hsorted : List.Pairwise (· < ·) (k :: t) := by
    rw [← h]
    exact hS.filter _
  unfold anchored PRange.split_after
  by_cases hlt : k + 1 < r.hi
  · simp only [if_pos hlt]
    rw [filterRange_narrow S r.lo r.hi k hlt]
    rw [show (⟨r.lo, r.hi⟩ : PRange) = r from rfl, h]
    exact filter_gt_head k t hsorted
  · simp only [if_neg hlt]
    rcases t with _ | ⟨x, t2⟩
    · rfl
    · exfalso
      have hx : x ∈ filterRange S r := by
        rw [h]; exact List.mem_cons_of_mem _ (List.mem_cons_self _ _)
      have hhi : x < r.hi := ((mem_filterRange S r x).mp hx).2.2
      have hkx : k < x := (List.pairwise_cons.mp hsorted).1 x (List.mem_cons_self _ _)
      omega

theorem split_after_self (lo hi k : Nat) (h : k + 1 < hi) :
    (PRange.mk (max lo (k + 1)) hi).split_after k = some ⟨max lo (k + 1), hi⟩ := by
  unfold PRange.split_after
  simp only [if_pos h]
  congr 2
  omega

theorem split_after_shift (lo hi k0 k : Nat) (h : k0 < k) :
    (PRange.mk (max lo (k0 + 1)) hi).split_after k = (PRange.mk lo hi).split_after k := by
  unfold PRange.split_after
  by_cases hlt : k + 1 < hi
  · simp only [if_pos hlt]
    congr 2
    omega
  · simp only [if_neg hlt]

theorem split_after_eq_some (r : PRange) (k : Nat) (r2 : PRange)
    (h : r.split_after k = some r2) :
    r2 = ⟨max r.lo (k + 1), r.hi⟩ ∧ k + 1 < r.hi := by
  unfold PRange.split_after at h
  by_cases hlt : k + 1 < r.hi
  · simp only [if_pos hlt, Option.some.injEq] at h
    exact ⟨h.symm, hlt⟩
  · simp [hlt] at h

/-- The last emitted key after a pull from remaining keys `rem`. -/
def next_lastE (rem : List Nat) (lastE : Option Nat) : Option Nat :=
  match rem with
  | [] => lastE
  | k :: _ => some k

theorem anchored_step (S : List Nat) (hS : List.Pairwise (· < ·) S)
    (lastE : Option Nat) (r : PRange) (k : Nat) (t : List Nat)
    (h : anchored S lastE r (k :: t)) :
    anchored S (some k) r t := by
  cases lastE with
  | none => exact anchored_next S hS r k t h
  | some k0 =>
    dsimp only [anchored] at h
    cases hsp : r.split_after k0 with
    | none => rw [hsp] at h; cases h
    | some r2 =>
      rw [hsp] at h
      obtain ⟨hr2, hhi⟩ := split_after_eq_some r k0 r2 hsp
      have hstep := anchored_next S hS r2 k t h
      have hk0k : k0 < k := by
        have hk : k ∈ filterRange S r2 := by
          rw [h]; exact List.mem_cons_self _ _
        have hlo := ((mem_filterRange S r2 k).mp hk).2.1
        rw [hr2] at hlo
        simp only at hlo
        omega
      dsimp only [anchored] at hstep ⊢
      have hsh : r2.split_after k = r.split_after k := by
        rw [hr2]
        have hshift := split_after_shift r.lo r.hi k0 k hk0k
        simpa using hshift
      rw [← hsh]
      exact hstep

theorem pull_next_tracks (S rem : List Nat) (lastE : Option Nat)
    (hS : List.Pairwise (· < ·) S) (st : AUR) (tr : TrackerStats) (ad : Bool)
    (u : UReader)
    (h1 : st.new_last_key = lastE)
    (h2 : anchored S lastE st.range rem)
    (h3 : st.reader = some u) (h4 : u.rest = rem) :
    (pull_next st tr ad).frag = rem.head? ∧
    tracks S rem.tail (next_lastE rem lastE) (pull_next st tr ad).st := by
  unfold pull_next
  rw [h3]
  dsimp only
  rw [h4]
  cases rem with
  | nil =>
    dsimp only [next_lastE]
    refine ⟨rfl, h1, h2, ?_⟩
    intro u2 hu2
    rw [h3] at hu2
    cases hu2
    rw [h4]
    rfl
  | cons k t =>
    dsimp only [next_lastE]
    refine ⟨rfl, rfl, ?_, ?_⟩
    · exact anchored_step S hS lastE st.range k t h2
    · intro u2 hu2
      cases hu2
      rfl

theorem recreate_tracks (c : RCache) (phase : Nat) (tr : TrackerStats) (st : AUR)
    (S rem : List Nat) (lastE : Option Nat)
    (hS : List.Pairwise (· < ·) S)
    (hc : ∀ p, c.snapshot_for_phase p = S)
    (h1 : st.new_last_key = lastE)
    (h2 : filterRange S st.range = rem)
    (h2a : anchored S lastE st.range rem) :
    (recreate_and_pull c phase tr st).frag = rem.head? ∧
    tracks S rem.tail (next_lastE rem lastE)
      (recreate_and_pull c phase tr st).st := by
  have hrest : (create_underlying_reader (c.snapshot_for_phase phase) st.range).rest = rem := by
    unfold create_underlying_reader
    rw [hc phase]
    exact h2
  unfold recreate_and_pull
  dsimp only
  exact pull_next_tracks S rem lastE hS _ _ _ _ h1 h2a rfl hrest

theorem move_tracks (c : RCache) (tr : TrackerStats) (st : AUR)
    (S rem : List Nat) (lastE : Option Nat)
    (hS : List.Pairwise (· < ·) S)
    (hc : ∀ p, c.snapshot_for_phase p = S)
    (hg : tracks S rem lastE st) :
    (move_to_next_partition c tr st).frag = rem.head? ∧
    tracks S rem.tail (next_lastE rem lastE)
      (move_to_next_partition c tr st).st := by
  obtain ⟨h1, h2, h3⟩ := hg
  obtain ⟨rd, ph, rg, lk0, nlk⟩ := st
  simp only at h1 h2 h3
  unfold move_to_next_partition
  dsimp only
  by_cases hb : (rd.isSome &&
      (ph == c.phase_of (population_range_start ⟨rd, ph, rg, nlk, nlk⟩))) = true
  · rw [if_pos hb]
    have hrs : rd.isSome = true := by
      simpa using (Bool.and_eq_true _ _ |>.mp hb).1
    obtain ⟨u, hu⟩ := Option.isSome_iff_exists.mp hrs
    exact pull_next_tracks S rem lastE hS ⟨rd, ph, rg, nlk, nlk⟩ tr false u h1 h2 hu (h3 u hu)
  · rw [if_neg hb]
    cases nlk with
    | none =>
      dsimp only
      have h2b : filterRange S rg = rem := by
        rw [← h1] at h2
        exact h2
      exact recreate_tracks c _ tr ⟨rd, ph, rg, none, none⟩ S rem lastE hS hc h1 h2b h2
    | some lk =>
      dsimp only
      rw [← h1] at h2
      dsimp only [anchored] at h2
      cases hsp : rg.split_after lk with
      | none =>
        rw [hsp] at h2
        subst h2
        refine ⟨rfl, h1, ?_, ?_⟩
        · rw [← h1]
          dsimp only [next_lastE, anchored]
          rw [hsp]
          rfl
        · intro u2 hu2
          cases hu2
      | some r2 =>
        rw [hsp] at h2
        obtain ⟨hr2, hhi⟩ := split_after_eq_some rg lk r2 hsp
        have h2a : anchored S lastE r2 rem := by
          rw [← h1]
          dsimp only [anchored]
          have hself : r2.split_after lk = some r2 := by
            rw [hr2]
            simpa using split_after_self rg.lo rg.hi lk hhi
          rw [hself]
          exact h2
        exact recreate_tracks c _ tr ⟨rd, ph, r2, none, some lk⟩ S rem lastE hS hc h1 h2 h2a

theorem run_reads_tracks (S : List Nat) (hS : List.Pairwise (· < ·) S) :
    ∀ (n : Nat) (cs : Nat → RCache) (tr : TrackerStats) (st : AUR)
      (rem : List Nat) (lastE : Option Nat),
      (∀ i p, (cs i).snapshot_for_phase p = S) →
      tracks S rem lastE st →
      (run_reads cs tr st n).1 = take_frags n rem := by
  intro n
  induction n with
  | zero => intro cs tr st rem lastE _ _; rfl
  | succ m ih =>
    intro cs tr st rem lastE hcs hg
    obtain ⟨hfrag, htr⟩ := move_tracks (cs 0) tr st S rem lastE hS (hcs 0) hg
    unfold run_reads
    dsimp only
    rw [hfrag]
    unfold take_frags
    congr 1
    exact ih (fun i => cs (i + 1)) _ _ rem.tail (next_lastE rem lastE)
      (fun i p => hcs (i + 1) p) htr

theorem initAUR_tracks (S : List Nat) (r0 : PRange) :
    tracks S (filterRange S r0) none (initAUR r0) :=
  ⟨rfl, rfl, fun u hu => by cases hu⟩

/-- C2: a read through the autoupdating underlying reader emits, across
any number of underlying-reader recreations triggered by interleaved
phase advances (the per-call caches `cs i` may install arbitrary
`phase_of` functions, forcing a teardown/recreate whenever the phase at
the read position differs from the reader's creation phase), exactly the
fragment sequence of a single read against one fixed snapshot: it equals
the run against any fixed cache (zero forced recreations) and equals the
ideal key sequence of the snapshot restricted to the read's range.  The
snapshot hypotheses say that every phase's snapshot has the same
logical content `S` — the premise that flush/compaction phase advances
change the source invisibly for a position-only reader. -/
theorem autoupdating_reader_phase_transparency
    (S : List Nat) (r0 : PRange) (cs : Nat → RCache) (fixed : RCache)
    (n : Nat) (tr tr2 : TrackerStats)
    (hS : List.Pairwise (· < ·) S)
    (hcs : ∀ i p, (cs i).snapshot_for_phase p = S)
    (hfix : ∀ p, fixed.snapshot_for_phase p = S) :
    (run_reads cs tr (initAUR r0) n).1 =
      (run_reads (fun _ => fixed) tr2 (initAUR r0) n).1 ∧
    (run_reads cs tr (initAUR r0) n).1 = take_frags n (filterRange S r0) := by
  have hrun := run_reads_tracks S hS n cs tr (initAUR r0)
    (filterRange S r0) none hcs (initAUR_tracks S r0)
  have hrun2 := run_reads_tracks S hS n (fun _ => fixed) tr2 (initAUR r0)
    (filterRange S r0) none (fun _ p => hfix p) (initAUR_tracks S r0)
  exact ⟨hrun.trans hrun2.symm, hrun⟩

/-- A cache whose phase advances at every ring position on every call:
call `i` claims phase `i` everywhere, so each `move_to_next_partition`
call of a run sees a phase different from the reader's creation phase
and recreates the underlying reader. -/
def advancingCaches : Nat → RCache :=
  fun i => ⟨fun _ => i + 1, fun _ => [2, 5, 7]⟩

/-- A cache with one fixed phase and the same snapshot content. -/
def fixedCache : RCache := ⟨fun _ => 0, fun _ => [2, 5, 7]⟩

theorem autoupdating_reader_phase_transparency_witness :
    List.Pairwise (· < ·) [2, 5, 7] ∧
    ((run_reads advancingCaches ⟨0, 0⟩ (initAUR ⟨1, 7⟩) 4).1 =
        (run_reads (fun _ => fixedCache) ⟨0, 0⟩ (initAUR ⟨1, 7⟩) 4).1 ∧
      (run_reads advancingCaches ⟨0, 0⟩ (initAUR ⟨1, 7⟩) 4).1 =
        take_frags 4 (filterRange [2, 5, 7] ⟨1, 7⟩)) :=
  ⟨by decide,
    autoupdating_reader_phase_transparency [2, 5, 7] ⟨1, 7⟩ advancingCaches
      fixedCache 4 ⟨0, 0⟩ ⟨0, 0⟩ (by decide) (fun _ _ => rfl) (fun _ => rfl)⟩

/-- C3: one `move_to_next_partition()` call that takes the recreation
branch (no underlying reader yet, or the cache phase at the read's
current position differs from the reader's creation phase) closes the
old reader and: when the range split after the last emitted key is
empty, ends the read with no reader; otherwise re-anchors the range to
the remaining range just after the last fully-emitted key, creates the
new reader against the snapshot for that phase (restricted to that
range, so after the pull it holds exactly the not-yet-emitted keys), and
records the creation phase.  The returned fragment is `rem.head?`, the
next fragment of the ideal uninterrupted read — the same as if no
recreation had occurred. -/
theorem move_to_next_partition_recreate
    (c : RCache) (tr : TrackerStats) (st : AUR)
    (S rem : List Nat) (lastE : Option Nat)
    (hS : List.Pairwise (· < ·) S)
    (hc : ∀ p, c.snapshot_for_phase p = S)
    (hg : tracks S rem lastE st)
    (hb : (st.reader.isSome &&
        (st.reader_creation_phase ==
          c.phase_of (population_range_start
            { st with last_key := st.new_last_key }))) = false) :
    (move_to_next_partition c tr st).frag = rem.head? ∧
    (remaining_range st = none →
      (move_to_next_partition c tr st).st.reader = none ∧
      (move_to_next_partition c tr st).frag = none ∧
      (move_to_next_partition c tr st).tr = tr) ∧
    (∀ rng, remaining_range st = some rng →
      (move_to_next_partition c tr st).st.range = rng ∧
      (move_to_next_partition c tr st).st.reader_creation_phase =
        c.phase_of (population_range_start { st with last_key := st.new_last_key }) ∧
      (move_to_next_partition c tr st).st.reader =
        some ⟨c.snapshot_for_phase
            (c.phase_of (population_range_start { st with last_key := st.new_last_key })),
          rem.tail⟩ ∧
      (move_to_next_partition c tr st).tr.underlying_recreations =
        tr.underlying_recreations + (if st.reader.isSome then 1 else 0)) := by
  obtain ⟨h1, h2, h3⟩ := hg
  obtain ⟨rd, ph, rg, lk0, nlk⟩ := st
  simp only at h1 h2 h3 hb
  refine ⟨(move_tracks c tr ⟨rd, ph, rg, lk0, nlk⟩ S rem lastE hS hc ⟨h1, h2, h3⟩).1, ?_, ?_⟩
  · intro hrr
    unfold remaining_range at hrr
    simp only at hrr
    unfold move_to_next_partition
    dsimp only
    rw [hb, if_neg Bool.false_ne_true]
    cases nlk with
    | none => dsimp only at hrr; cases hrr
    | some lk =>
      dsimp only
      dsimp only at hrr
      rw [hrr]
      exact ⟨rfl, rfl, rfl⟩
  · intro rng hrr
    unfold remaining_range at hrr
    simp only at hrr
    unfold move_to_next_partition
    dsimp only
    rw [hb, if_neg Bool.false_ne_true]
    have hsnap := hc (c.phase_of (population_range_start ⟨rd, ph, rg, nlk, nlk⟩))
    cases nlk with
    | none =>
      dsimp only
      dsimp only at hrr
      cases hrr
      have h2b : filterRange S rg = rem := by
        rw [← h1] at h2
        exact h2
      unfold recreate_and_pull
      dsimp only
      unfold pull_next create_underlying_reader
      dsimp only
      rw [hsnap, h2b]
      cases rem with
      | nil => exact ⟨rfl, rfl, rfl, by cases rd <;> simp⟩
      | cons k t => exact ⟨rfl, rfl, rfl, by cases rd <;> simp⟩
    | some lk =>
      dsimp only
      dsimp only at hrr
      rw [hrr]
      have h2b : filterRange S rng = rem := by
        rw [← h1] at h2
        dsimp only [anchored] at h2
        rw [hrr] at h2
        exact h2
      unfold recreate_and_pull
      dsimp only
      unfold pull_next create_underlying_reader
      dsimp only
      rw [hsnap, h2b]
      cases rem with
      | nil => exact ⟨rfl, rfl, rfl, by cases rd <;> simp⟩
      | cons k t => exact ⟨rfl, rfl, rfl, by cases rd <;> simp⟩

theorem move_to_next_partition_recreate_witness :
    (move_to_next_partition fixedCache ⟨0, 0⟩ (initAUR ⟨1, 7⟩)).frag = some 2 :=
  ((move_to_next_partition_recreate fixedCache ⟨0, 0⟩ (initAUR ⟨1, 7⟩)
      [2, 5, 7] (filterRange [2, 5, 7] ⟨1, 7⟩) none (by decide) (fun _ => rfl)
      ⟨rfl, rfl, fun _ hu => nomatch hu⟩ rfl).1).trans (by decide)

/-- The tail of the recreation branch as the C9 claim reads it: the old
reader is released through `close_reader()` — which dereferences
`_reader` only when it actually holds a reader — instead of executing
`std::move(*_reader)` unconditionally.  Used to compare the code
against the claim. -/
def recreate_and_pull_guarded (c : RCache) (phase : Nat) (tr : TrackerStats)
    (st : AUR) : MtnpResult :=
  let tr2 := if st.reader.isSome then
      { tr with underlying_recreations := tr.underlying_recreations + 1 } else tr
  let st2 := { st with
      reader := some (create_underlying_reader (c.snapshot_for_phase phase) st.range),
      reader_creation_phase := phase }
  pull_next st2 tr2 false

/-- `move_to_next_partition()` with the guarded recreation tail; its
only difference from the transcribed code is that no disengaged
dereference of the reader optional ever happens. -/
def move_to_next_partition_guarded (c : RCache) (tr : TrackerStats)
    (st0 : AUR) : MtnpResult :=
  let st := { st0 with last_key := st0.new_last_key }
  let phase := c.phase_of (population_range_start st)
  if st.reader.isSome && (st.reader_creation_phase == phase) then
    pull_next st tr false
  else
    match st.last_key with
    | none => recreate_and_pull_guarded c phase tr st
    | some lk =>
      match st.range.split_after lk with
      | none => ⟨none, { st with reader := none }, tr, false⟩
      | some r2 =>
        recreate_and_pull_guarded c phase tr { st with range := r2, last_key := none }

theorem pull_next_parts (st : AUR) (tr : TrackerStats) (a b : Bool) :
    (pull_next st tr a).frag = (pull_next st tr b).frag ∧
    (pull_next st tr a).st = (pull_next st tr b).st ∧
    (pull_next st tr a).tr = (pull_next st tr b).tr := by
  unfold pull_next
  cases st.reader with
  | none => exact ⟨rfl, rfl, rfl⟩
  | some u =>
    dsimp only
    cases u.rest <;> exact ⟨rfl, rfl, rfl⟩

theorem pull_next_ad (st : AUR) (tr : TrackerStats) (ad : Bool) :
    (pull_next st tr ad).absent_deref = ad := by
  unfold pull_next
  cases st.reader with
  | none => rfl
  | some u =>
    dsimp only
    cases u.rest <;> rfl

/-- The very first `move_to_next_partition()` call on a freshly
constructed `autoupdating_underlying_reader` (no underlying reader yet,
so the recreation branch runs) executes `std::move(*_reader)` while the
optional holds no reader: the claimed property that every dereference of
the stored optional happens with a reader present fails on this
concrete input. -/
theorem move_to_next_partition_absent_deref_counterexample :
    (initAUR ⟨1, 7⟩).reader = none ∧
    (move_to_next_partition fixedCache ⟨0, 0⟩ (initAUR ⟨1, 7⟩)).absent_deref = true :=
  ⟨rfl, rfl⟩

/-- C9 (amended): the recreation branch of `move_to_next_partition()`
dereferences the stored reader optional even when it holds no reader —
the flag is raised exactly on recreations that found no old reader, in
particular on the very first call — but the dereference is harmless:
`flat_mutation_reader_opt` is an optimized optional whose disengaged
dereference yields the null reader, closing which is a no-op, so the
call returns the same fragment, reader state and counters as the
guarded variant that dereferences the optional only when a reader is
present.  The fragment-pulling dereferences themselves
(`next_partition`, the buffer check and the pull) happen only with a
reader present, which the equality with the guarded variant certifies. -/
theorem move_to_next_partition_deref_harmless (c : RCache) (tr : TrackerStats)
    (st : AUR) :
    ((move_to_next_partition c tr st).absent_deref = true → st.reader = none) ∧
    (move_to_next_partition c tr st).frag =
      (move_to_next_partition_guarded c tr st).frag ∧
    (move_to_next_partition c tr st).st =
      (move_to_next_partition_guarded c tr st).st ∧
    (move_to_next_partition c tr st).tr =
      (move_to_next_partition_guarded c tr st).tr := by
  obtain ⟨rd, ph, rg, lk0, nlk⟩ := st
  unfold move_to_next_partition move_to_next_partition_guarded
  dsimp only
  by_cases hb : (rd.isSome &&
      (ph == c.phase_of (population_range_start ⟨rd, ph, rg, nlk, nlk⟩))) = true
  · rw [if_pos hb, if_pos hb]
    refine ⟨?_, (pull_next_parts _ _ _ _).1, (pull_next_parts _ _ _ _).2.1,
        (pull_next_parts _ _ _ _).2.2⟩
    intro had
    rw [pull_next_ad] at had
    cases had
  · rw [if_neg hb, if_neg hb]
    cases nlk with
    | none =>
      dsimp only
      unfold recreate_and_pull recreate_and_pull_guarded
      dsimp only
      refine ⟨?_, (pull_next_parts _ _ _ _).1, (pull_next_parts _ _ _ _).2.1,
          (pull_next_parts _ _ _ _).2.2⟩
      intro had
      rw [pull_next_ad] at had
      cases rd with
      | none => rfl
      | some u => cases had
    | some lk =>
      dsimp only
      cases rg.split_after lk with
      | none =>
        refine ⟨?_, rfl, rfl, rfl⟩
        intro had
        cases had
      | some r2 =>
        unfold recreate_and_pull recreate_and_pull_guarded
        dsimp only
        refine ⟨?_, (pull_next_parts _ _ _ _).1, (pull_next_parts _ _ _ _).2.1,
            (pull_next_parts _ _ _ _).2.2⟩
        intro had
        rw [pull_next_ad] at had
        cases rd with
        | none => rfl
        | some u => cases had

/-- Cache for the C4 counterexample: ring position 0 is still governed
by phase 0 while position 5 (the start of the range being forwarded to)
is already governed by phase 1 — the situation of a flush whose boundary
lies between the two positions. -/
def c4cache : RCache := ⟨fun pos => if pos = 0 then 0 else 1, fun _ => [6, 8]⟩

/-- Reader state for the C4 counterexample: an underlying reader created
in phase 0 over the range [0, 10). -/
def c4state : AUR := ⟨some ⟨[6, 8], [6, 8]⟩, 0, ⟨0, 10⟩, none, none⟩

/-- C4 evaluated at the failing input: the underlying reader exists and
its creation phase (0) differs from the cache's phase for the start of
`new_range = [5, 10)` (which is 1), so the claim requires a recreation
and a recreation-counter increment; but `fast_forward_to` samples the
phase at the start of the PRE-call range `[0, 10)` (which is 0, equal to
the creation phase), so the code instead reuses the old reader via a
native fast-forward and increments the partition-skip counter. -/
theorem fast_forward_to_phase_counterexample :
    c4state.reader.isSome = true ∧
    c4cache.phase_of (PRange.mk 5 10).lo ≠ c4state.reader_creation_phase ∧
    (fast_forward_to1 c4cache ⟨0, 0⟩ c4state ⟨5, 10⟩).2.underlying_recreations = 0 ∧
    (fast_forward_to1 c4cache ⟨0, 0⟩ c4state ⟨5, 10⟩).2.underlying_partition_skips = 1 ∧
    (fast_forward_to1 c4cache ⟨0, 0⟩ c4state ⟨5, 10⟩).1.reader =
      some (UReader.fast_forward_to ⟨[6, 8], [6, 8]⟩ ⟨5, 10⟩) :=
  ⟨rfl, by decide, rfl, rfl, rfl⟩

end Cache

namespace Memtable

/-- Modelled from the spec: `memtable.cc` / `atomic_cell` are not part of
the repository snapshot (only `test/boost/memtable_test.cc` is).  A cell
is a written value tagged with its write timestamp; reconciliation of
two writes to the same (partition, column) slot is per-cell timestamp
comparison with a deterministic value tie-break on equal timestamps
("idempotent with respect to timestamp ordering"). -/
structure Cell where
  ts : Nat
  val : Nat
deriving DecidableEq, Repr

/-- Per-cell convergent merge: the cell with the larger (timestamp,
value) pair wins. -/
def mergeCell (a b : Cell) : Cell :=
  if a.ts < b.ts ∨ (a.ts = b.ts ∧ a.val ≤ b.val) then b else a

/-- Merge one incoming cell into the current content of a slot. -/
def applyCell (o : Option Cell) (c : Cell) : Option Cell :=
  match o with
  | none => some c
  | some a => some (mergeCell a c)

/-- Merge a stream of cells (in version order) into a slot. -/
def applySlot (o : Option Cell) (l : List Cell) : Option Cell :=
  l.foldl applyCell o

/-- Merge of two optional slot contents (absent slots are neutral). -/
def oMerge : Option Cell → Option Cell → Option Cell
  | none, o => o
  | some a, none => some a
  | some a, some b => some (mergeCell a b)

theorem mergeCell_comm (a b : Cell) : mergeCell a b = mergeCell b a := by
  obtain ⟨x1, y1⟩ := a
  obtain ⟨x2, y2⟩ := b
  unfold mergeCell
  dsimp only
  split_ifs <;> first | rfl | ((try dsimp only at *); rw [Cell.mk.injEq]; omega)

theorem mergeCell_assoc (a b c : Cell) :
    mergeCell (mergeCell a b) c = mergeCell a (mergeCell b c) := by
  obtain ⟨x1, y1⟩ := a
  obtain ⟨x2, y2⟩ := b
  obtain ⟨x3, y3⟩ := c
  unfold mergeCell
  dsimp only
  split_ifs <;> first | rfl | ((try dsimp only at *); rw [Cell.mk.injEq]; omega)

theorem mergeCell_idem (a : Cell) : mergeCell a a = a := by
  unfold mergeCell
  split_ifs <;> rfl

theorem oMerge_comm (o1 o2 : Option Cell) : oMerge o1 o2 = oMerge o2 o1 := by
  cases o1 <;> cases o2 <;> simp [oMerge, mergeCell_comm]

theorem oMerge_assoc (o1 o2 o3 : Option Cell) :
    oMerge (oMerge o1 o2) o3 = oMerge o1 (oMerge o2 o3) := by
  cases o1 <;> cases o2 <;> cases o3 <;> simp [oMerge, mergeCell_assoc]

theorem oMerge_idem (o : Option Cell) : oMerge o o = o := by
  cases o <;> simp [oMerge, mergeCell_idem]

theorem applyCell_oMerge (o : Option Cell) (c : Cell) :
    applyCell o c = oMerge o (some c) := by
  cases o <;> rfl

theorem applyCell_right_comm (z : Option Cell) (x y : Cell) :
    applyCell (applyCell z x) y = applyCell (applyCell z y) x := by
  rw [applyCell_oMerge, applyCell_oMerge, applyCell_oMerge, applyCell_oMerge,
    oMerge_assoc, oMerge_assoc, oMerge_comm (some x) (some y)]

theorem applySlot_eq_oMerge (o : Option Cell) (l : List Cell) :
    applySlot o l = oMerge o (applySlot none l) := by
  induction l generalizing o with
  | nil => cases o <;> rfl
  | cons c t ih =>
    unfold applySlot
    simp only [List.foldl_cons]
    rw [show t.foldl applyCell (applyCell o c) = applySlot (applyCell o c) t from rfl,
      show t.foldl applyCell (applyCell none c) = applySlot (applyCell none c) t from rfl,
      ih (applyCell o c), ih (applyCell none c),
      applyCell_oMerge o c, applyCell_oMerge none c, oMerge_assoc]
    rfl

theorem applySlot_append (o : Option Cell) (l1 l2 : List Cell) :
    applySlot o (l1 ++ l2) = applySlot (applySlot o l1) l2 := by
  unfold applySlot
  rw [List.foldl_append]

theorem applySlot_absorb (o : Option Cell) (l : List Cell) :
    applySlot (applySlot o l) l = applySlot o l := by
  rw [applySlot_eq_oMerge (applySlot o l) l, applySlot_eq_oMerge o l,
    oMerge_assoc, oMerge_idem]

/-- Modelled from the spec: a mutation targets one partition key and
carries a set of written cells, each addressed by a column id.  Keys and
columns are abstracted to `Nat`. -/
structure Mutation where
  key : Nat
  cells : List (Nat × Cell)
deriving DecidableEq, Repr

/-- The cells a mutation contributes to slot (partition `k`, column
`col`), in write order. -/
def cellsFor (m : Mutation) (k col : Nat) : List Cell :=
  if m.key = k then (m.cells.filter (fun pc => pc.1 = col)).map (fun pc => pc.2) else []

/-- Modelled from the spec: the memtable holds, per partition, a version
chain to which `apply` prepends a new version and whose read merges all
versions; at whole-table level this is exactly the list of applied
mutations in application order ("an empty chain is a valid
representation", "read ... across all versions ... newest-wins ...
per-cell timestamp comparison"). -/
abbrev memtable : Type := List Mutation

/-- `memtable::apply(mutation)`: record one more version. -/
def apply (mt : memtable) (m : Mutation) : memtable := mt ++ [m]

/-- A memtable populated by applying `muts` in list order to an empty
memtable. -/
def build (muts : List Mutation) : memtable := muts.foldl apply ([] : List Mutation)

/-- Reading slot (partition `k`, column `col`) through the memtable used
as a mutation source: merge the contributions of every stored version in
chain order by per-cell timestamp comparison. -/
def readCell (mt : memtable) (k col : Nat) : Option Cell :=
  applySlot none (mt.flatMap (fun m => cellsFor m k col))

/-- Merging a set of mutations directly (not through a memtable) by
per-cell timestamp: the same convergent merge applied to the mutation
list itself. -/
def directMergeCell (muts : List Mutation) (k col : Nat) : Option Cell :=
  applySlot none (muts.flatMap (fun m => cellsFor m k col))

theorem readCell_perm (mt1 mt2 : List Mutation) (hp : mt1.Perm mt2) (k col : Nat) :
    readCell mt1 k col = readCell mt2 k col := by
  unfold readCell applySlot
  exact (hp.flatMap_right _).foldl_eq'
    (fun x _ y _ z => applyCell_right_comm z x y) none

theorem build_eq (muts : List Mutation) : build muts = muts := by
  have hgen : ∀ (l acc : List Mutation), l.foldl apply acc = acc ++ l := by
    intro l
    induction l with
    | nil => intro acc; simp
    | cons m t ih =>
      intro acc
      simp only [List.foldl_cons]
      rw [ih]
      unfold apply
      simp
  unfold build
  rw [hgen]
  simp

/-- Ordered insert of a key into a strictly sorted key list (dropping
duplicates): the indexed lookup structure of partition entries. -/
def insKey (k : Nat) : List Nat → List Nat
  | [] => [k]
  | x :: t => if k < x then k :: x :: t else if k = x then x :: t else x :: insKey k t

/-- The partition keys present in a mutation log, in ring order. -/
def sortedKeys (log : List Mutation) : List Nat :=
  log.foldr (fun m acc => insKey m.key acc) []

theorem mem_insKey (a k : Nat) (l : List Nat) :
    a ∈ insKey k l ↔ a = k ∨ a ∈ l := by
  induction l with
  | nil => simp [insKey]
  | cons x t ih =>
    unfold insKey
    by_cases h1 : k < x
    · simp [h1]
    · by_cases h2 : k = x
      · rw [if_neg h1, if_pos h2]
        subst h2
        simp only [List.mem_cons]
        tauto
      · simp only [if_neg h1, if_neg h2, List.mem_cons, ih]
        tauto

theorem sorted_insKey (k : Nat) (l : List Nat)
    (hl : List.Pairwise (· < ·) l) :
    List.Pairwise (· < ·) (insKey k l) := by
  induction l with
  | nil => simp [insKey]
  | cons x t ih =>
    obtain ⟨hx, ht⟩ := List.pairwise_cons.mp hl
    unfold insKey
    by_cases h1 : k < x
    · simp only [if_pos h1]
      refine List.pairwise_cons.mpr ⟨?_, hl⟩
      intro b hb
      rcases List.mem_cons.mp hb with hb | hb
      · omega
      · have := hx b hb
        omega
    · by_cases h2 : k = x
      · simp only [if_neg h1, if_pos h2]
        exact hl
      · simp only [if_neg h1, if_neg h2]
        refine List.pairwise_cons.mpr ⟨?_, ih ht⟩
        intro b hb
        rcases (mem_insKey b k t).mp hb with hb | hb
        · omega
        · exact hx b hb

theorem mem_sortedKeys (a : Nat) (log : List Mutation) :
    a ∈ sortedKeys log ↔ ∃ m, m ∈ log ∧ m.key = a := by
  induction log with
  | nil => simp [sortedKeys]
  | cons m t ih =>
    unfold sortedKeys
    simp only [List.foldr_cons]
    rw [show t.foldr (fun m acc => insKey m.key acc) [] = sortedKeys t from rfl]
      at *
    rw [mem_insKey, ih]
    constructor
    · rintro (h | ⟨m2, hm2, hk⟩)
      · exact ⟨m, List.mem_cons_self _ _, h.symm⟩
      · exact ⟨m2, List.mem_cons_of_mem _ hm2, hk⟩
    · rintro ⟨m2, hm2, hk⟩
      rcases List.mem_cons.mp hm2 with hm2 | hm2
      · subst hm2; exact Or.inl hk.symm
      · exact Or.inr ⟨m2, hm2, hk⟩

theorem sorted_sortedKeys (log : List Mutation) :
    List.Pairwise (· < ·) (sortedKeys log) := by
  induction log with
  | nil => simp [sortedKeys]
  | cons m t ih => exact sorted_insKey m.key (sortedKeys t) ih

theorem sorted_eq_of_mem_iff :
    ∀ (l1 l2 : List Nat), List.Pairwise (· < ·) l1 → List.Pairwise (· < ·) l2 →
      (∀ a, a ∈ l1 ↔ a ∈ l2) → l1 = l2 := by
  intro l1
  induction l1 with
  | nil =>
    intro l2 _ _ hmem
    cases l2 with
    | nil => rfl
    | cons b t2 => exact absurd ((hmem b).mpr (List.mem_cons_self _ _)) (by simp)
  | cons x t1 ih =>
    intro l2 h1 h2 hmem
    cases l2 with
    | nil => exact absurd ((hmem x).mp (List.mem_cons_self _ _)) (by simp)
    | cons y t2 =>
      obtain ⟨hx1, ht1⟩ := List.pairwise_cons.mp h1
      obtain ⟨hy2, ht2⟩ := List.pairwise_cons.mp h2
      have hxy : x = y := by
        have hx2 := (hmem x).mp (List.mem_cons_self _ _)
        have hy1 := (hmem y).mpr (List.mem_cons_self _ _)
        rcases List.mem_cons.mp hx2 with h | h
        · exact h
        · rcases List.mem_cons.mp hy1 with h2c | h2c
          · exact h2c.symm
          · have := hy2 x h
            have := hx1 y h2c
            omega
      subst hxy
      congr 1
      apply ih t2 ht1 ht2
      intro a
      constructor
      · intro ha
        have := (hmem a).mp (List.mem_cons_of_mem _ ha)
        rcases List.mem_cons.mp this with h | h
        · subst h; exact absurd (hx1 a ha) (by omega)
        · exact h
      · intro ha
        have := (hmem a).mpr (List.mem_cons_of_mem _ ha)
        rcases List.mem_cons.mp this with h | h
        · subst h; exact absurd (hy2 a ha) (by omega)
        · exact h

theorem sortedKeys_perm (mt1 mt2 : List Mutation) (hp : mt1.Perm mt2) :
    sortedKeys mt1 = sortedKeys mt2 := by
  apply sorted_eq_of_mem_iff _ _ (sorted_sortedKeys mt1) (sorted_sortedKeys mt2)
  intro a
  rw [mem_sortedKeys, mem_sortedKeys]
  constructor
  · rintro ⟨m, hm, hk⟩; exact ⟨m, hp.mem_iff.mp hm, hk⟩
  · rintro ⟨m, hm, hk⟩; exact ⟨m, hp.mem_iff.mpr hm, hk⟩

/-- C1: a memtable filled by `apply`ing a set of mutations in any order
(`order` ranges over the permutations of `muts`) produces, used as a
mutation source, the same merged row stream as merging those mutations
directly by per-cell timestamp: the partition keys appear in the same
ring order and every (partition, column) slot merges to the same cell;
moreover applying the same logical write twice (or any write already
subsumed) converges to the same state as applying it once, by per-cell
timestamp comparison. -/
theorem memtable_conforms_to_mutation_source
    (muts order : List Mutation) (hp : order.Perm muts) :
    sortedKeys (build order) = sortedKeys muts ∧
    (∀ k col, readCell (build order) k col = directMergeCell muts k col) ∧
    (∀ (mt : memtable) (m : Mutation) (k col : Nat),
      readCell (apply (apply mt m) m) k col = readCell (apply mt m) k col) := by
  refine ⟨?_, ?_, ?_⟩
  · rw [build_eq]
    exact sortedKeys_perm order muts hp
  · intro k col
    rw [build_eq]
    exact readCell_perm order muts hp k col
  · intro mt m k col
    unfold apply readCell
    rw [List.flatMap_append, applySlot_append, List.flatMap_append, applySlot_append]
    exact applySlot_absorb _ _

/-- Two single-cell mutations on distinct partitions, used to
instantiate the C1 theorem. -/
def m1ex : Mutation := ⟨1, [(0, ⟨1, 10⟩)]⟩

/-- Second example mutation for the C1 witness. -/
def m2ex : Mutation := ⟨2, [(0, ⟨2, 20⟩)]⟩

theorem memtable_conforms_to_mutation_source_witness :
    ([m2ex, m1ex] : List Mutation).Perm [m1ex, m2ex] ∧
    (sortedKeys (build [m2ex, m1ex]) = sortedKeys [m1ex, m2ex] ∧
    (∀ k col, readCell (build [m2ex, m1ex]) k col =
        directMergeCell [m1ex, m2ex] k col) ∧
    (∀ (mt : memtable) (m : Mutation) (k col : Nat),
      readCell (apply (apply mt m) m) k col = readCell (apply mt m) k col)) :=
  ⟨by decide,
    memtable_conforms_to_mutation_source [m1ex, m2ex] [m2ex, m1ex] (by decide)⟩

/-- Modelled from the spec: `memtable::mark_flushed(new_source)` and the
memtable reader are not under src/ (only `test/boost/memtable_test.cc`
exercises them).  The flush-substitution state of a memtable: `flushed`
is the version-chain content covered by the completed flush, `fresh`
the not-yet-durable in-memory data layered on top, and `subst` the
replacement source installed by `mark_flushed` for the already-flushed
partitions. -/
structure FlushMemtable where
  flushed : List Mutation
  fresh : List Mutation
  subst : Option (List Mutation)
deriving DecidableEq, Repr

/-- The mutation log a reader of the memtable observes: the substituted
source (once `mark_flushed` installed one) for the flushed partitions,
with the not-yet-durable in-memory data layered on top. -/
def visibleLog (s : FlushMemtable) : List Mutation :=
  (s.subst.getD s.flushed) ++ s.fresh

/-- `memtable::mark_flushed(new_source)`: substitute the externally
visible source for the already-flushed partitions. -/
def mark_flushed (s : FlushMemtable) (src : List Mutation) : FlushMemtable :=
  { s with subst := some src }

/-- The partition keys a reader positioned at (or fast-forwarded to the
range starting at) ring position `pos` still has to produce, in key
order. -/
def remainingKeys (s : FlushMemtable) (pos : Nat) : List Nat :=
  (sortedKeys (visibleLog s)).filter (fun k => decide (pos ≤ k))

theorem readCell_append (l1 l2 : List Mutation) (k col : Nat) :
    readCell (l1 ++ l2) k col =
      applySlot (readCell l1 k col) (l2.flatMap (fun m => cellsFor m k col)) := by
  unfold readCell
  rw [List.flatMap_append, applySlot_append]

theorem sortedKeys_append_mem (l1 l2 : List Mutation) (a : Nat) :
    a ∈ sortedKeys (l1 ++ l2) ↔ a ∈ sortedKeys l1 ∨ a ∈ sortedKeys l2 := by
  rw [mem_sortedKeys, mem_sortedKeys, mem_sortedKeys]
  constructor
  · rintro ⟨m, hm, hk⟩
    rcases List.mem_append.mp hm with h | h
    · exact Or.inl ⟨m, h, hk⟩
    · exact Or.inr ⟨m, h, hk⟩
  · rintro (⟨m, hm, hk⟩ | ⟨m, hm, hk⟩)
    · exact ⟨m, List.mem_append.mpr (Or.inl hm), hk⟩
    · exact ⟨m, List.mem_append.mpr (Or.inr hm), hk⟩

/-- C5: for a memtable with applied mutations and a reader created
before flush completion, `mark_flushed(new_source)` — where
`new_source` holds the flushed data (same partition keys, same merged
cells) — leaves the reader producing exactly the remaining partitions
in key order from any position, including after a `fast_forward_to` to
a later range (any later `pos`), with the same merged cell contents:
identical to a read with no `mark_flushed` call. -/
theorem mark_flushed_transparent (s : FlushMemtable) (src : List Mutation)
    (hsub : s.subst = none)
    (hkeys : ∀ a, (∃ m, m ∈ src ∧ m.key = a) ↔ (∃ m, m ∈ s.flushed ∧ m.key = a))
    (hcells : ∀ k col, readCell src k col = readCell s.flushed k col) :
    (∀ pos, remainingKeys (mark_flushed s src) pos = remainingKeys s pos) ∧
    (∀ k col, readCell (visibleLog (mark_flushed s src)) k col =
        readCell (visibleLog s) k col) := by
  have hvis1 : visibleLog (mark_flushed s src) = src ++ s.fresh := rfl
  have hvis2 : visibleLog s = s.flushed ++ s.fresh := by
    unfold visibleLog
    rw [hsub]
    rfl
  have hkeyseq : sortedKeys (visibleLog (mark_flushed s src)) =
      sortedKeys (visibleLog s) := by
    rw [hvis1, hvis2]
    apply sorted_eq_of_mem_iff _ _ (sorted_sortedKeys _) (sorted_sortedKeys _)
    intro a
    simp only [mem_sortedKeys]
    constructor
    · rintro ⟨m, hm, hk⟩
      rcases List.mem_append.mp hm with h | h
      · obtain ⟨m2, hm2, hk2⟩ := (hkeys a).mp ⟨m, h, hk⟩
        exact ⟨m2, List.mem_append.mpr (Or.inl hm2), hk2⟩
      · exact ⟨m, List.mem_append.mpr (Or.inr h), hk⟩
    · rintro ⟨m, hm, hk⟩
      rcases List.mem_append.mp hm with h | h
      · obtain ⟨m2, hm2, hk2⟩ := (hkeys a).mpr ⟨m, h, hk⟩
        exact ⟨m2, List.mem_append.mpr (Or.inl hm2), hk2⟩
      · exact ⟨m, List.mem_append.mpr (Or.inr h), hk⟩
  constructor
  · intro pos
    unfold remainingKeys
    rw [hkeyseq]
  · intro k col
    rw [hvis1, hvis2, readCell_append, readCell_append, hcells]

theorem mark_flushed_transparent_witness :
    (FlushMemtable.mk [m1ex] [m2ex] none).subst = none ∧
    ((∀ pos, remainingKeys
        (mark_flushed (FlushMemtable.mk [m1ex] [m2ex] none) [m1ex]) pos =
        remainingKeys (FlushMemtable.mk [m1ex] [m2ex] none) pos) ∧
    (∀ k col, readCell
        (visibleLog (mark_flushed (FlushMemtable.mk [m1ex] [m2ex] none) [m1ex])) k col =
        readCell (visibleLog (FlushMemtable.mk [m1ex] [m2ex] none)) k col)) :=
  ⟨rfl, mark_flushed_transparent (FlushMemtable.mk [m1ex] [m2ex] none) [m1ex]
    rfl (fun _ => Iff.rfl) (fun _ _ => rfl)⟩

/-- Modelled from the spec: the dirty-memory accounting of a memtable
flush (`memtable.cc` is not under src/).  `parts` is the memtable
content as (partition key, size) pairs in key order, `virtual_dirty`
the bytes not yet guaranteed durable, and `flushed_memory` the bytes
the current flush read has accounted so far. -/
structure AccMemtable where
  parts : List (Nat × Nat)
  virtual_dirty : Nat
  flushed_memory : Nat
deriving DecidableEq, Repr

/-- Account one fully streamed partition of `sz` bytes: its bytes move
out of virtual dirty and into the flush accounting. -/
def flush_one (s : AccMemtable) (sz : Nat) : AccMemtable :=
  { s with virtual_dirty := s.virtual_dirty - sz,
           flushed_memory := s.flushed_memory + sz }

/-- A flush read that stops (e.g. an allocation failure surfaces) after
fully streaming `n` partitions: the accounting after those partitions
paired with the streamed prefix. -/
def flush_read_upto (s : AccMemtable) (n : Nat) : AccMemtable × List (Nat × Nat) :=
  (((s.parts.take n).map (fun p => p.2)).foldl flush_one s, s.parts.take n)

/-- `memtable::revert_flushed_memory()`: the compensating accounting run
after a failed flush read — the bytes accounted by the flush move back
into virtual dirty. -/
def revert_flushed_memory (s : AccMemtable) : AccMemtable :=
  { s with virtual_dirty := s.virtual_dirty + s.flushed_memory,
           flushed_memory := 0 }

/-- Total size of a partition list. -/
def partSizes (l : List (Nat × Nat)) : Nat := (l.map (fun p => p.2)).sum

theorem flush_fold (szs : List Nat) (s : AccMemtable) :
    (szs.foldl flush_one s).parts = s.parts ∧
    (szs.foldl flush_one s).flushed_memory = s.flushed_memory + szs.sum ∧
    (szs.foldl flush_one s).virtual_dirty = s.virtual_dirty - szs.sum := by
  induction szs generalizing s with
  | nil => exact ⟨rfl, by simp, by simp⟩
  | cons a t ih =>
    simp only [List.foldl_cons]
    obtain ⟨h1, h2, h3⟩ := ih (flush_one s a)
    refine ⟨h1, ?_, ?_⟩
    · rw [h2]
      unfold flush_one
      dsimp only
      rw [List.sum_cons]
      omega
    · rw [h3]
      unfold flush_one
      dsimp only
      rw [List.sum_cons]
      omega

/-- C6: if a flush read fails after streaming any number `n` of
partitions and the flushed-memory accounting is reverted, no applied
mutation is lost: the memtable still holds every partition it held
before the failure, the virtual-dirty counter is restored exactly to its
pre-flush value, the flush accounting is zeroed, and a retried flush
read streams all of the partitions. -/
theorem flush_failure_revert (s : AccMemtable) (n : Nat)
    (h0 : s.flushed_memory = 0)
    (hd : s.virtual_dirty = partSizes s.parts) :
    (revert_flushed_memory (flush_read_upto s n).1).parts = s.parts ∧
    (revert_flushed_memory (flush_read_upto s n).1).virtual_dirty =
      s.virtual_dirty ∧
    (revert_flushed_memory (flush_read_upto s n).1).flushed_memory = 0 ∧
    (flush_read_upto (revert_flushed_memory (flush_read_upto s n).1)
        (revert_flushed_memory (flush_read_upto s n).1).parts.length).2 =
      s.parts := by
  obtain ⟨h1, h2, h3⟩ :=
    flush_fold ((s.parts.take n).map (fun p => p.2)) s
  have htake : partSizes (s.parts.take n) ≤ partSizes s.parts := by
    have hsplit : partSizes (s.parts.take n) + partSizes (s.parts.drop n) =
        partSizes s.parts := by
      unfold partSizes
      rw [← List.sum_append, ← List.map_append, List.take_append_drop]
    omega
  have hparts : (flush_read_upto s n).1.parts = s.parts := h1
  refine ⟨?_, ?_, ?_, ?_⟩
  · unfold revert_flushed_memory
    exact hparts
  · unfold revert_flushed_memory flush_read_upto
    dsimp only
    rw [h2, h3, h0]
    unfold partSizes at htake hd
    omega
  · unfold revert_flushed_memory
    rfl
  · unfold flush_read_upto
    dsimp only
    unfold revert_flushed_memory
    dsimp only
    rw [h1, List.take_length]

/-- C6 witness input: two partitions of sizes 7 and 5, pre-flush
accounting consistent (virtual dirty 12, nothing accounted yet),
failure after the first partition. -/
def accExample : AccMemtable := ⟨[(1, 7), (2, 5)], 12, 0⟩

theorem flush_failure_revert_witness :
    accExample.flushed_memory = 0 ∧
    accExample.virtual_dirty = partSizes accExample.parts ∧
    ((revert_flushed_memory (flush_read_upto accExample 1).1).parts =
        accExample.parts ∧
    (revert_flushed_memory (flush_read_upto accExample 1).1).virtual_dirty =
        accExample.virtual_dirty ∧
    (revert_flushed_memory (flush_read_upto accExample 1).1).flushed_memory = 0 ∧
    (flush_read_upto (revert_flushed_memory (flush_read_upto accExample 1).1)
        (revert_flushed_memory (flush_read_upto accExample 1).1).parts.length).2 =
      accExample.parts) :=
  ⟨rfl, by decide, flush_failure_revert accExample 1 rfl (by decide)⟩

/-- Modelled from the spec: the operations that touch virtual dirty
memory while a flush read streams a memtable, in any interleaving: the
flush reader finishes streaming a partition of `sz` accounted bytes
(moving them out of virtual dirty), an in-memory (LSA) compaction frees
`freed` bytes, or a concurrent reader runs (which never changes dirty
accounting). -/
inductive FlushEvent where
  | flush_part (sz : Nat)
  | compact (freed : Nat)
  | reader_op
deriving DecidableEq, Repr

/-- Effect of one interleaved event on the virtual-dirty counter. -/
def stepDirty (d : Nat) : FlushEvent → Nat
  | .flush_part sz => d - sz
  | .compact freed => d - freed
  | .reader_op => d

/-- The virtual-dirty samples taken after each successive partition has
been fully streamed by the flush reader, along an interleaving `evs`
starting from counter value `d`. -/
def dirtySamples (d : Nat) : List FlushEvent → List Nat
  | [] => []
  | e :: t =>
    match e with
    | .flush_part sz => (d - sz) :: dirtySamples (d - sz) t
    | .compact freed => dirtySamples (d - freed) t
    | .reader_op => dirtySamples d t

theorem dirtySamples_le (d : Nat) (evs : List FlushEvent) :
    ∀ x ∈ dirtySamples d evs, x ≤ d := by
  induction evs generalizing d with
  | nil => intro x hx; cases hx
  | cons e t ih =>
    intro x hx
    cases e with
    | flush_part sz =>
      unfold dirtySamples at hx
      rcases List.mem_cons.mp hx with h | h
      · omega
      · have := ih (d - sz) x h
        omega
    | compact freed =>
      unfold dirtySamples at hx
      have := ih (d - freed) x hx
      omega
    | reader_op =>
      unfold dirtySamples at hx
      exact ih d x hx

/-- C7: along every interleaving of the flush read with concurrent
readers and in-memory compaction, the sequence of virtual-dirty-memory
values sampled after each successive fully-streamed partition is
non-increasing (every later sample is at most every earlier one), and
never exceeds the pre-flush value. -/
theorem virtual_dirty_non_increasing_on_flush (d : Nat) (evs : List FlushEvent) :
    List.Pairwise (fun a b => b ≤ a) (dirtySamples d evs) ∧
    ∀ x ∈ dirtySamples d evs, x ≤ d := by
  refine ⟨?_, dirtySamples_le d evs⟩
  induction evs generalizing d with
  | nil => exact List.Pairwise.nil
  | cons e t ih =>
    cases e with
    | flush_part sz =>
      unfold dirtySamples
      exact List.pairwise_cons.mpr ⟨fun b hb => dirtySamples_le (d - sz) t b hb, ih (d - sz)⟩
    | compact freed =>
      unfold dirtySamples
      exact ih (d - freed)
    | reader_op =>
      unfold dirtySamples
      exact ih d

/-- Modelled from the spec: the memtable's active-schema handle
(`memtable::set_schema`) and its flat readers (only the tests are under
src/).  A schema is its list of regular column ids; the memtable pairs
the active schema (used by newly created readers) with the shared
version-chain log. -/
structure SchemaMemtable where
  schema : List Nat
  log : List Mutation
deriving DecidableEq, Repr

/-- `memtable::set_schema(s2)`: swap the active schema; stored data and
live readers are untouched. -/
def set_schema (mt : SchemaMemtable) (s2 : List Nat) : SchemaMemtable :=
  { mt with schema := s2 }

/-- A flat reader on the memtable: it captures at creation the schema it
reads under and a cursor over the partitions in key order; the rows
themselves are pulled from the shared log. -/
structure MtReader where
  schema : List Nat
  pos : Nat
deriving DecidableEq, Repr

/-- `memtable::make_flat_reader(schema)` at the memtable's active
schema. -/
def make_flat_reader (mt : SchemaMemtable) : MtReader :=
  ⟨mt.schema, 0⟩

/-- One produced partition: the schema it is emitted under, its key, and
the merged value of every column of that schema. -/
def RowOut : Type := List Nat × Nat × List (Nat × Option Cell)

/-- Pull the next partition through a reader. -/
def reader_next (r : MtReader) (mt : SchemaMemtable) : Option RowOut × MtReader :=
  match (sortedKeys mt.log)[r.pos]? with
  | none => (none, r)
  | some k =>
    (some (r.schema, k, r.schema.map (fun c => (c, readCell mt.log k c))),
     { r with pos := r.pos + 1 })

/-- Pull `n` partitions through a reader, returning the produced rows
and the advanced reader. -/
def reader_pull (r : MtReader) (mt : SchemaMemtable) : Nat → List RowOut × MtReader
  | 0 => ([], r)
  | n + 1 =>
    match reader_next r mt with
    | (none, r2) => ([], r2)
    | (some row, r2) =>
      let rest := reader_pull r2 mt n
      (row :: rest.1, rest.2)

theorem reader_pull_succ (r : MtReader) (mt : SchemaMemtable) (n : Nat) :
    reader_pull r mt (n + 1) =
      match reader_next r mt with
      | (none, r2) => ([], r2)
      | (some row, r2) =>
        (row :: (reader_pull r2 mt n).1, (reader_pull r2 mt n).2) := rfl

theorem reader_next_none (r : MtReader) (mt : SchemaMemtable) (r2 : MtReader)
    (hnx : reader_next r mt = (none, r2)) : r2 = r := by
  unfold reader_next at hnx
  cases hk : (sortedKeys mt.log)[r.pos]? with
  | none => rw [hk] at hnx; cases hnx; rfl
  | some k => rw [hk] at hnx; cases hnx

theorem reader_pull_exhausted (r : MtReader) (mt : SchemaMemtable)
    (hnx : reader_next r mt = (none, r)) (n : Nat) :
    reader_pull r mt n = ([], r) := by
  cases n with
  | zero => rfl
  | succ m =>
    rw [reader_pull_succ, hnx]

theorem reader_pull_add (r : MtReader) (mt : SchemaMemtable) (j n : Nat) :
    (reader_pull r mt (j + n)).1 =
      (reader_pull r mt j).1 ++ (reader_pull (reader_pull r mt j).2 mt n).1 := by
  induction j generalizing r with
  | zero => simp [reader_pull]
  | succ m ih =>
    have hsucc : m + 1 + n = (m + n) + 1 := by omega
    rw [hsucc, reader_pull_succ r mt (m + n), reader_pull_succ r mt m]
    cases hnx : reader_next r mt with
    | mk o r2 =>
      cases o with
      | none =>
        have hr := reader_next_none r mt r2 hnx
        subst hr
        dsimp only
        rw [reader_pull_exhausted r2 mt hnx n]
        simp
      | some row =>
        dsimp only
        rw [ih r2]
        simp

theorem reader_next_schema (r : MtReader) (mt : SchemaMemtable) :
    (reader_next r mt).2.schema = r.schema := by
  unfold reader_next
  cases (sortedKeys mt.log)[r.pos]? <;> rfl

theorem reader_pull_keeps_schema (r : MtReader) (mt : SchemaMemtable) (n : Nat) :
    (reader_pull r mt n).2.schema = r.schema := by
  induction n generalizing r with
  | zero => rfl
  | succ m ih =>
    rw [reader_pull_succ]
    cases hnx : reader_next r mt with
    | mk o r2 =>
      have hr2 : r2.schema = r.schema := by
        rw [show r2 = (reader_next r mt).2 from by rw [hnx]]
        exact reader_next_schema r mt
      cases o with
      | none =>
        dsimp only
        exact hr2
      | some row =>
        dsimp only
        rw [ih r2]
        exact hr2

theorem reader_pull_schema (r : MtReader) (mt : SchemaMemtable) (n : Nat) :
    ∀ row ∈ (reader_pull r mt n).1, row.1 = r.schema := by
  induction n generalizing r with
  | zero => intro row hrow; cases hrow
  | succ m ih =>
    intro row hrow
    rw [reader_pull_succ] at hrow
    cases hnx : reader_next r mt with
    | mk o r2 =>
      rw [hnx] at hrow
      have hr2 : r2.schema = r.schema := by
        rw [show r2 = (reader_next r mt).2 from by rw [hnx]]
        exact reader_next_schema r mt
      cases o with
      | none => cases hrow
      | some row2 =>
        dsimp only at hrow
        rcases List.mem_cons.mp hrow with h | h
        · rw [h]
          unfold reader_next at hnx
          cases hk : (sortedKeys mt.log)[r.pos]? with
          | none => rw [hk] at hnx; cases hnx
          | some k =>
            rw [hk] at hnx
            dsimp only at hnx
            have hrow2 : row2 = (r.schema, k,
                r.schema.map (fun c => (c, readCell mt.log k c))) := by
              have hfst := congrArg Prod.fst hnx
              dsimp only at hfst
              exact (Option.some_inj.mp hfst).symm
            rw [hrow2]
        · rw [← hr2]
          exact ih r2 row h

theorem reader_next_set_schema (r : MtReader) (mt : SchemaMemtable)
    (s2 : List Nat) :
    reader_next r (set_schema mt s2) = reader_next r mt := rfl

theorem reader_pull_set_schema (r : MtReader) (mt : SchemaMemtable)
    (s2 : List Nat) (m : Nat) :
    reader_pull r (set_schema mt s2) m = reader_pull r mt m := by
  induction m generalizing r with
  | zero => rfl
  | succ k ih =>
    rw [reader_pull_succ, reader_pull_succ, reader_next_set_schema]
    cases reader_next r mt with
    | mk o r2 =>
      cases o with
      | none => rfl
      | some row =>
        dsimp only
        rw [ih r2]

/-- C8: swapping the memtable's active schema to `s2` (e.g. a schema
with additional columns) midway through a pre-existing reader's
iteration changes neither the schema nor the values of any mutation
subsequently read through that reader: for every split point `j`, the
rows produced before the swap followed by the rows produced after the
swap equal the rows of the same read with no swap, every produced row
carries the reader's creation schema, and only a reader created after
the swap sees `s2`. -/
theorem set_schema_does_not_affect_existing_reader
    (mt : SchemaMemtable) (s2 : List Nat) (j n : Nat) :
    ((reader_pull (make_flat_reader mt) mt j).1 ++
      (reader_pull (reader_pull (make_flat_reader mt) mt j).2
        (set_schema mt s2) n).1 =
      (reader_pull (make_flat_reader mt) mt (j + n)).1) ∧
    (∀ row ∈ (reader_pull (make_flat_reader mt) mt j).1 ++
        (reader_pull (reader_pull (make_flat_reader mt) mt j).2
          (set_schema mt s2) n).1,
      row.1 = mt.schema) ∧
    (make_flat_reader (set_schema mt s2)).schema = s2 := by
  refine ⟨?_, ?_, rfl⟩
  · rw [reader_pull_set_schema, reader_pull_add]
  · intro row hrow
    rw [reader_pull_set_schema] at hrow
    rcases List.mem_append.mp hrow with h | h
    · exact reader_pull_schema (make_flat_reader mt) mt j row h
    · rw [reader_pull_schema _ mt n row h, reader_pull_keeps_schema]
      rfl

end Memtable
